import Mathlib

/- A shallow embedding and verification of the core of the drudge worker-pool
library: the panic-capture utilities (src/panic.rs), the channel receiver
classification (src/channel.rs), the ordered outcome iterator
(src/hive/outcome/iter.rs), and a model of the util::map helper
(src/util/mod.rs). Rust iterators are embedded as Lean lists, the reorderer's
HashMap as an association list, and panics/unwinding as explicit result
variants. -/

/-- Models the contents of a `PanicPayload = Box<dyn Any + Send + 'static>`
(src/panic.rs line 8): a type-erased value, given here by the runtime type id
of the boxed value (what `(*payload).type_id()` would return) together with an
opaque value of type `V`. -/
structure PanicPayloadM (V : Type) where
  typeId : Nat
  value : V
deriving DecidableEq

/-- What the expression `payload.type_id()` in src/panic.rs line 59 actually
returns: the receiver is the `Box<dyn Any + Send>` itself, and the blanket
`impl<T: ?Sized + 'static> Any for T` applies to the box type before
auto-deref, so the call resolves to `TypeId::of::<Box<dyn Any + Send>>()` --
one fixed type id, the same for every payload, independent of the boxed
value. Only equality of type ids is ever observed, so the id is modelled as
an arbitrary fixed constant. -/
def PanicPayloadM.box_type_id {V : Type} (_ : PanicPayloadM V) : Nat := 0

/-- Wraps a payload from a caught panic with an optional detail
(src/panic.rs lines 11-15). -/
structure Panic (T V : Type) where
  payload : PanicPayloadM V
  detail : Option T
deriving DecidableEq

/-- The dynamic behavior of calling a Rust closure `FnOnce() -> O` under
unwinding semantics: the call either returns a value normally or unwinds with
a panic payload. -/
inductive CallOutcome (O V : Type) where
  | returns (v : O)
  | unwinds (payload : PanicPayloadM V)
deriving DecidableEq

/-- `Panic::try_call` (src/panic.rs lines 20-22): runs `f` inside
`panic::catch_unwind(AssertUnwindSafe(|| f()))` and applies
`.map_err(|payload| Self { payload, detail })`: a normal return is passed
through as `Ok`, an unwinding panic is caught and wrapped as
`Err(Panic { payload, detail })`. The function is total: no unwinding
escapes the call. -/
def Panic.try_call {T O V : Type} (detail : Option T) (f : CallOutcome O V) :
    Except (Panic T V) O :=
  match f with
  | .returns v => .ok v
  | .unwinds payload => .error ⟨payload, detail⟩

/-- `impl PartialEq for Panic` exactly as written (src/panic.rs lines 57-63):
`self.payload.type_id() == other.payload.type_id() && self.detail ==
other.detail`. Both `type_id` calls resolve on the `Box` itself (see
`PanicPayloadM.box_type_id`), so the first conjunct compares one constant
with itself. -/
def Panic.eqCode {T V : Type} [DecidableEq T] (a b : Panic T V) : Bool :=
  (a.payload.box_type_id == b.payload.box_type_id) && (a.detail == b.detail)

/-- The equality relation the spec describes (spec section 3): identity of the
payload's runtime type -- the type id of the boxed value -- plus equality of
details. -/
def Panic.eqSpec {T V : Type} [DecidableEq T] (a b : Panic T V) : Bool :=
  (a.payload.typeId == b.payload.typeId) && (a.detail == b.detail)

/-- `std::sync::mpsc::TryRecvError` (matched in src/channel.rs lines 38-39). -/
inductive TryRecvError where
  | empty
  | disconnected
deriving DecidableEq

/-- Possible results of `ReceiverExt::try_recv_msg` (src/channel.rs
lines 7-11). -/
inductive Message (T : Type) where
  | received (t : T)
  | channelDisconnected
  | channelEmpty
deriving DecidableEq

/-- The default (std::sync::mpsc) implementation of
`ReceiverExt::try_recv_msg` (src/channel.rs lines 34-42): classifies the
result of the underlying `try_recv()`, which returns either `Ok(t)` or one of
the two `TryRecvError` variants. -/
def try_recv_msg {T : Type} (r : Except TryRecvError T) : Message T :=
  match r with
  | .ok t => .received t
  | .error .empty => .channelEmpty
  | .error .disconnected => .channelDisconnected

/-- Modelled from the spec: the `Outcome` data model (spec section 3);
`Outcome` itself is defined in src/hive/outcome/outcome.rs, which is not part
of the excerpt. Type parameters: `I` input, `O` output, `E` error, `D` panic
detail, `V` panic payload value. Variants and fields follow spec section 3:
`Success {index, value}`, `Failure {index, input?, error}`,
`MaxRetriesAttempted {index, input, error}`, `Panic {index, input?, payload,
detail?}` (the payload and detail wrapped as a `Panic` value), and
`Unprocessed {index, input}`. -/
inductive Outcome (I O E D V : Type) where
  | success (index : Nat) (value : O)
  | failure (index : Nat) (input : Option I) (error : E)
  | maxRetriesAttempted (index : Nat) (input : I) (error : E)
  | panicked (index : Nat) (input : Option I) (panic : Panic D V)
  | unprocessed (index : Nat) (input : I)
deriving DecidableEq

/-- Modelled from the spec: `Outcome::index` (defined in the missing
src/hive/outcome/outcome.rs; spec section 3: every outcome is keyed by the
task index) returns the `index` field of any variant. -/
def Outcome.index {I O E D V : Type} : Outcome I O E D V → Nat
  | .success i _ => i
  | .failure i _ _ => i
  | .maxRetriesAttempted i _ _ => i
  | .panicked i _ _ => i
  | .unprocessed i _ => i

/-- The value-or-effect outcome of converting an `Outcome` into a
`TaskResult<W> = Result<W::Output, W::Error>`: either a value (`Ok`), an
error (`Err`), or one of the two divergent effects described by the doc
comment of the conversion (resuming the captured unwinding, or panicking). -/
inductive TaskResultEff (O E V : Type) where
  | ok (value : O)
  | err (error : E)
  | resumeUnwinding (payload : PanicPayloadM V)
  | panicAbort
deriving DecidableEq

/-- Modelled from the spec: `Outcome::into_error` (defined in the missing
src/hive/outcome/outcome.rs). Per the doc comment on the conversion in
src/hive/outcome/iter.rs lines 7-11 and spec section 7: a `Failure` or
`MaxRetriesAttempted` outcome yields its error, a `Panic` outcome resumes
unwinding with the preserved payload, and an `Unprocessed` outcome panics.
`Success` never reaches `into_error` from the conversion (it is matched
first); it is modelled as a panic as well. -/
def Outcome.intoErrorEff {I O E D V : Type} : Outcome I O E D V → TaskResultEff O E V
  | .success _ _ => .panicAbort
  | .failure _ _ e => .err e
  | .maxRetriesAttempted _ _ e => .err e
  | .panicked _ _ p => .resumeUnwinding p.payload
  | .unprocessed _ _ => .panicAbort

/-- `impl From<Outcome<W>> for TaskResult<W>` (src/hive/outcome/iter.rs
lines 12-20): a `Success` outcome becomes `Ok(value)`; every other outcome
becomes `Err(value.into_error())`, where `into_error` itself diverges on the
`Panic` and `Unprocessed` variants. -/
def Outcome.intoTaskResult {I O E D V : Type} (o : Outcome I O E D V) :
    TaskResultEff O E V :=
  match o with
  | .success _ v => .ok v
  | o => o.intoErrorEff

/-- Modelled from the spec: `Outcome::unwrap` (defined in the missing
src/hive/outcome/outcome.rs; spec sections 4.5 and 7: unwrapping helpers
return the `Success` value and diverge otherwise -- re-raising panics and
treating other non-success variants as bugs). The divergence is modelled as
`none`. -/
def Outcome.unwrapModel {I O E D V : Type} : Outcome I O E D V → Option O
  | .success _ v => some v
  | _ => none

/- ----------------------------------------------------------------------
The ordered outcome iterator (src/hive/outcome/iter.rs lines 22-98).
The upstream iterator is a list, the HashMap buffer an association list.
---------------------------------------------------------------------- -/

/-- Looks up the first entry with key `k`; models `HashMap::get`/the lookup
half of `HashMap::remove`. -/
def bufGet {α : Type} : List (Nat × α) → Nat → Option α
  | [], _ => none
  | (k, v) :: rest, key => if k = key then some v else bufGet rest key

/-- Removes the first entry with key `k`; models the removal half of
`HashMap::remove`. -/
def bufErase {α : Type} : List (Nat × α) → Nat → List (Nat × α)
  | [], _ => []
  | (k, v) :: rest, key => if k = key then rest else (k, v) :: bufErase rest key

/-- Inserts `(k, v)`, overwriting any existing entry with key `k`; models
`HashMap::insert`. -/
def bufInsert {α : Type} (buf : List (Nat × α)) (k : Nat) (v : α) :
    List (Nat × α) :=
  (k, v) :: bufErase buf k

/-- The state of an `OutcomeIterator` (src/hive/outcome/iter.rs lines 23-28):
the upstream iterator `inner`, the buffer of out-of-order outcomes `buf`, the
`next` cursor, and the optional `limit`. -/
structure OutcomeIterator (I O E D V : Type) where
  inner : List (Outcome I O E D V)
  buf : List (Nat × Outcome I O E D V)
  next : Nat
  limit : Option Nat
deriving DecidableEq

/-- `OutcomeIterator::new` (src/hive/outcome/iter.rs lines 34-45). -/
def OutcomeIterator.new {I O E D V : Type} (inner : List (Outcome I O E D V)) :
    OutcomeIterator I O E D V :=
  ⟨inner, [], 0, none⟩

/-- `OutcomeIterator::with_limit` (src/hive/outcome/iter.rs lines 51-62):
note that the upstream is wrapped in `inner.into_iter().take(limit)` before
reordering. -/
def OutcomeIterator.with_limit {I O E D V : Type}
    (inner : List (Outcome I O E D V)) (limit : Nat) :
    OutcomeIterator I O E D V :=
  ⟨inner.take limit, [], 0, some limit⟩

/-- The guard `Some(limit) if self.next >= limit` of the first match in
`OutcomeIterator::next` (src/hive/outcome/iter.rs lines 70-73). -/
def limitReached : Option Nat → Nat → Bool
  | some l, nxt => l ≤ nxt
  | none, _ => false

/-- The result of one call to `OutcomeIterator::next`: a yielded outcome with
the successor state, the end of the sequence (`None`) with the final state, a
panic with its message, or exhaustion of the modelling fuel (which never
happens for the fuel used by `OutcomeIterator.next`). -/
inductive NextRes (I O E D V : Type) where
  | yield (o : Outcome I O E D V) (s : OutcomeIterator I O E D V)
  | done (s : OutcomeIterator I O E D V)
  | panicked (msg : String)
  | fuelOut
deriving DecidableEq

/-- The loop body of `OutcomeIterator::next` (src/hive/outcome/iter.rs
lines 68-97), with an explicit iteration budget `fuel`. Each pass: if a limit
is configured and `next >= limit`, end the sequence; otherwise take the
outcome with key `next` out of the buffer if present (leaving the upstream
untouched) or else pull one from the upstream; if neither yields one, end the
sequence; otherwise compare its index `i` with `next`: `i < next` panics with
"duplicate result index", `i = next` yields it and increments the cursor, and
`i > next` inserts it into the buffer under key `i` and loops. -/
def nextGo {I O E D V : Type} : Nat → List (Outcome I O E D V) →
    List (Nat × Outcome I O E D V) → Nat → Option Nat → NextRes I O E D V
  | 0, _, _, _, _ => .fuelOut
  | fuel + 1, inner, buf, nxt, limit =>
    if limitReached limit nxt then .done ⟨inner, buf, nxt, limit⟩
    else
      match bufGet buf nxt with
      | some o =>
        if o.index < nxt then .panicked ("duplicate result index")
        else if o.index = nxt then
          .yield o ⟨inner, bufErase buf nxt, nxt + 1, limit⟩
        else
          nextGo fuel inner (bufInsert (bufErase buf nxt) o.index o) nxt limit
      | none =>
        match inner with
        | [] => .done ⟨[], buf, nxt, limit⟩
        | o :: rest =>
          if o.index < nxt then .panicked ("duplicate result index")
          else if o.index = nxt then .yield o ⟨rest, buf, nxt + 1, limit⟩
          else nextGo fuel rest (bufInsert buf o.index o) nxt limit

/-- One call to `OutcomeIterator::next`. The budget
`inner.length + buf.length + 2` always suffices: every pass but the last
moves one element (from the upstream, or a mis-keyed buffer entry) into the
buffer under a fresh key. -/
def iterNext {I O E D V : Type} (s : OutcomeIterator I O E D V) :
    NextRes I O E D V :=
  nextGo (s.inner.length + s.buf.length + 2) s.inner s.buf s.next s.limit

/-- Repeatedly calls `OutcomeIterator.next`, collecting the yielded outcomes
until the iterator ends (`Except.ok`) or panics (`Except.error`). `fuel`
bounds the number of calls; one more call than the number of buffered and
upstream elements always suffices. -/
def runGo {I O E D V : Type} : Nat → OutcomeIterator I O E D V →
    Except String (List (Outcome I O E D V))
  | 0, _ => .ok []
  | fuel + 1, s =>
    match iterNext s with
    | .yield o s' =>
      match runGo fuel s' with
      | .ok ys => .ok (o :: ys)
      | .error e => .error e
    | .done _ => .ok []
    | .panicked msg => .error msg
    | .fuelOut => .error ("fuel exhausted")

/-- The full sequence yielded by `into_ordered`
(`OutcomeIterator::new`, src/hive/outcome/iter.rs lines 101-106). -/
def intoOrderedRun {I O E D V : Type} (xs : List (Outcome I O E D V)) :
    Except String (List (Outcome I O E D V)) :=
  runGo (xs.length + 1) (OutcomeIterator.new xs)

/-- The full sequence yielded by `take_ordered(n)`
(`OutcomeIterator::with_limit`, src/hive/outcome/iter.rs lines 109-114). -/
def takeOrderedRun {I O E D V : Type} (n : Nat) (xs : List (Outcome I O E D V)) :
    Except String (List (Outcome I O E D V)) :=
  runGo (n + 1) (OutcomeIterator.with_limit xs n)

/- ----------------------------------------------------------------------
Model of util::map (src/util/mod.rs lines 30-43).
---------------------------------------------------------------------- -/

/-- Modelled from the spec: the outcomes produced by a hive for a pure map
(the `Builder`/`Hive`/`Caller` machinery used by `util::map` is not part of
the excerpt). Per spec sections 3, 4.1 and 8 (invariant 1), each input
submitted by `map` is assigned a consecutive index starting at 0 and, for a
worker that applies a non-panicking function `f`, produces exactly one
`Success {index, value := f input}` outcome. The set of outcomes does not
depend on the thread count (`numThreads`, required to be at least 1); only
the arrival order does, which is modelled separately as a permutation. -/
def hiveMapOutcomes {I O E D V : Type} (numThreads : Nat) (inputs : List I)
    (f : I → O) : List (Outcome I O E D V) :=
  inputs.enum.map (fun p => Outcome.success p.1 (f p.2))

/-- Collects `Outcome::unwrap` over a list of outcomes in order, as
`util::map` does over the arrival-order iterator (src/util/mod.rs
lines 37-42); if any outcome is not a `Success`, the unwrap diverges,
modelled as `none`. -/
def collectOutputs {I O E D V : Type} : List (Outcome I O E D V) → Option (List O)
  | [] => some []
  | o :: rest =>
    match o.unwrapModel with
    | some v => (collectOutputs rest).map (fun vs => v :: vs)
    | none => none

/-- Decidable equality for `Except`, used to evaluate runs on concrete
inputs. -/
instance exceptDecidableEq {ε α : Type} [DecidableEq ε] [DecidableEq α] :
    DecidableEq (Except ε α)
  | .error a, .error b =>
    if h : a = b then .isTrue (congrArg Except.error h)
    else .isFalse (fun hh => h (Except.error.inj hh))
  | .error _, .ok _ => .isFalse (fun hh => Except.noConfusion hh)
  | .ok _, .error _ => .isFalse (fun hh => Except.noConfusion hh)
  | .ok a, .ok b =>
    if h : a = b then .isTrue (congrArg Except.ok h)
    else .isFalse (fun hh => h (Except.ok.inj hh))


/-- Replaces the limit stored in an iterator state by `none`. -/
def clearLimit {I O E D V : Type} (s : OutcomeIterator I O E D V) :
    OutcomeIterator I O E D V :=
  ⟨s.inner, s.buf, s.next, none⟩

/-- Applies `clearLimit` to the states embedded in a `NextRes`. -/
def nextResClearLimit {I O E D V : Type} : NextRes I O E D V → NextRes I O E D V
  | .yield o s => .yield o (clearLimit s)
  | .done s => .done (clearLimit s)
  | .panicked msg => .panicked msg
  | .fuelOut => .fuelOut

/-- The multiset of outcomes still held by an iterator state: the upstream
elements together with the buffered ones. -/
def iterElems {I O E D V : Type} (inner : List (Outcome I O E D V))
    (buf : List (Nat × Outcome I O E D V)) : Multiset (Outcome I O E D V) :=
  ↑inner + ↑(buf.map Prod.snd)

/- ----------------------------------------------------------------------
Association-list buffer lemmas.
---------------------------------------------------------------------- -/

lemma bufGet_erase_ne {α : Type} (buf : List (Nat × α)) {k key : Nat}
    (h : k ≠ key) : bufGet (bufErase buf k) key = bufGet buf key := by
  induction buf with
  | nil => rfl
  | cons p rest ih =>
    obtain ⟨k0, v0⟩ := p
    by_cases hk : k0 = k
    · subst hk
      simp [bufErase, bufGet, h]
    · simp only [bufErase, bufGet, if_neg hk]
      by_cases hk2 : k0 = key
      · simp [bufGet, hk2]
      · simp [bufGet, hk2, ih]

lemma bufGet_insert_ne {α : Type} (buf : List (Nat × α)) (v : α) {k key : Nat}
    (h : k ≠ key) : bufGet (bufInsert buf k v) key = bufGet buf key := by
  simp only [bufInsert, bufGet, if_neg h]
  exact bufGet_erase_ne buf h

lemma bufErase_of_none {α : Type} {buf : List (Nat × α)} {k : Nat}
    (h : bufGet buf k = none) : bufErase buf k = buf := by
  induction buf with
  | nil => rfl
  | cons p rest ih =>
    obtain ⟨k0, v0⟩ := p
    by_cases hk : k0 = k
    · simp [bufGet, hk] at h
    · simp only [bufGet, if_neg hk] at h
      simp [bufErase, hk, ih h]

lemma bufErase_length {α : Type} {buf : List (Nat × α)} {k : Nat} {v : α}
    (h : bufGet buf k = some v) : buf.length = (bufErase buf k).length + 1 := by
  induction buf with
  | nil => simp [bufGet] at h
  | cons p rest ih =>
    obtain ⟨k0, v0⟩ := p
    by_cases hk : k0 = k
    · simp [bufErase, hk]
    · simp only [bufGet, if_neg hk] at h
      simp [bufErase, hk, ih h]

lemma bufInsert_length_le {α : Type} (buf : List (Nat × α)) (k : Nat) (v : α) :
    (bufInsert buf k v).length ≤ buf.length + 1 := by
  have herase : ∀ l : List (Nat × α), (bufErase l k).length ≤ l.length := by
    intro l
    induction l with
    | nil => simp [bufErase]
    | cons p rest ih =>
      obtain ⟨k0, v0⟩ := p
      by_cases hk : k0 = k
      · simp [bufErase, hk]
      · simp only [bufErase, if_neg hk, List.length_cons]
        omega
  simp only [bufInsert, List.length_cons]
  have := herase buf
  omega

lemma mem_bufErase {α : Type} {buf : List (Nat × α)} {k : Nat} {p : Nat × α}
    (h : p ∈ bufErase buf k) : p ∈ buf := by
  induction buf with
  | nil => simp [bufErase] at h
  | cons q rest ih =>
    obtain ⟨k0, v0⟩ := q
    by_cases hk : k0 = k
    · simp only [bufErase, if_pos hk] at h
      exact List.mem_cons_of_mem _ h
    · simp only [bufErase, if_neg hk, List.mem_cons] at h
      rcases h with h | h
      · exact List.mem_cons.mpr (Or.inl h)
      · exact List.mem_cons_of_mem _ (ih h)

lemma mem_bufInsert {α : Type} {buf : List (Nat × α)} {k : Nat} {v : α}
    {p : Nat × α} (h : p ∈ bufInsert buf k v) : p = (k, v) ∨ p ∈ buf := by
  simp only [bufInsert, List.mem_cons] at h
  rcases h with h | h
  · exact Or.inl h
  · exact Or.inr (mem_bufErase h)

lemma bufGet_mem {α : Type} {buf : List (Nat × α)} {k : Nat} {v : α}
    (h : bufGet buf k = some v) : (k, v) ∈ buf := by
  induction buf with
  | nil => simp [bufGet] at h
  | cons p rest ih =>
    obtain ⟨k0, v0⟩ := p
    by_cases hk : k0 = k
    · simp only [bufGet, if_pos hk] at h
      subst hk
      cases h
      exact List.mem_cons_self _ _
    · simp only [bufGet, if_neg hk] at h
      exact List.mem_cons_of_mem _ (ih h)

lemma bufGet_none_not_mem {α : Type} {buf : List (Nat × α)} {k : Nat} {v : α}
    (h : bufGet buf k = none) : (k, v) ∉ buf := by
  intro hmem
  induction buf with
  | nil => simp at hmem
  | cons p rest ih =>
    obtain ⟨k0, v0⟩ := p
    by_cases hk : k0 = k
    · simp [bufGet, hk] at h
    · simp only [bufGet, if_neg hk] at h
      rcases List.mem_cons.mp hmem with heq | hmem2
      · exact hk (congrArg Prod.fst heq).symm
      · exact ih h hmem2

lemma map_snd_erase {α : Type} {buf : List (Nat × α)} {k : Nat} {v : α}
    (h : bufGet buf k = some v) :
    (↑(buf.map Prod.snd) : Multiset α) =
      v ::ₘ ↑((bufErase buf k).map Prod.snd) := by
  induction buf with
  | nil => simp [bufGet] at h
  | cons p rest ih =>
    obtain ⟨k0, v0⟩ := p
    by_cases hk : k0 = k
    · simp only [bufGet, if_pos hk] at h
      cases h
      simp [bufErase, hk]
    · simp only [bufGet, if_neg hk] at h
      simp only [bufErase, if_neg hk, List.map_cons]
      rw [← Multiset.cons_coe, ← Multiset.cons_coe, ih h, Multiset.cons_swap]

/-- Well-formedness of the reorderer buffer: every entry is stored under its
outcome's index, as every `HashMap::insert` in `OutcomeIterator::next` uses
`outcome.index()` as the key. -/
abbrev WFBuf {I O E D V : Type} (buf : List (Nat × Outcome I O E D V)) : Prop :=
  ∀ p ∈ buf, (Prod.snd p).index = p.1

lemma WFBuf_bufGet {I O E D V : Type} {buf : List (Nat × Outcome I O E D V)}
    {k : Nat} {o : Outcome I O E D V} (hwf : WFBuf buf)
    (h : bufGet buf k = some o) : o.index = k :=
  hwf (k, o) (bufGet_mem h)

lemma WFBuf_bufErase {I O E D V : Type} {buf : List (Nat × Outcome I O E D V)}
    {k : Nat} (hwf : WFBuf buf) : WFBuf (bufErase buf k) :=
  fun p hp => hwf p (mem_bufErase hp)

lemma WFBuf_bufInsert {I O E D V : Type} {buf : List (Nat × Outcome I O E D V)}
    {o : Outcome I O E D V} (hwf : WFBuf buf) :
    WFBuf (bufInsert buf o.index o) := by
  intro p hp
  rcases mem_bufInsert hp with h | h
  · subst h
    rfl
  · exact hwf p h

/- ----------------------------------------------------------------------
Step lemmas unfolding one pass of the `OutcomeIterator::next` loop.
---------------------------------------------------------------------- -/

lemma nextGo_limit {I O E D V : Type} {fuel nxt : Nat}
    {inner : List (Outcome I O E D V)} {buf : List (Nat × Outcome I O E D V)}
    {limit : Option Nat} (h : limitReached limit nxt = true) :
    nextGo (fuel + 1) inner buf nxt limit = .done ⟨inner, buf, nxt, limit⟩ := by
  simp [nextGo, h]

lemma nextGo_buf_panic {I O E D V : Type} {fuel nxt : Nat}
    {inner : List (Outcome I O E D V)} {buf : List (Nat × Outcome I O E D V)}
    {limit : Option Nat} {o : Outcome I O E D V}
    (h : limitReached limit nxt = false) (hb : bufGet buf nxt = some o)
    (hi : o.index < nxt) :
    nextGo (fuel + 1) inner buf nxt limit = .panicked ("duplicate result index") := by
  simp [nextGo, h, hb, hi]

lemma nextGo_buf_yield {I O E D V : Type} {fuel nxt : Nat}
    {inner : List (Outcome I O E D V)} {buf : List (Nat × Outcome I O E D V)}
    {limit : Option Nat} {o : Outcome I O E D V}
    (h : limitReached limit nxt = false) (hb : bufGet buf nxt = some o)
    (hi : o.index = nxt) :
    nextGo (fuel + 1) inner buf nxt limit =
      .yield o ⟨inner, bufErase buf nxt, nxt + 1, limit⟩ := by
  simp [nextGo, h, hb, hi]

lemma nextGo_buf_cont {I O E D V : Type} {fuel nxt : Nat}
    {inner : List (Outcome I O E D V)} {buf : List (Nat × Outcome I O E D V)}
    {limit : Option Nat} {o : Outcome I O E D V}
    (h : limitReached limit nxt = false) (hb : bufGet buf nxt = some o)
    (hi : nxt < o.index) :
    nextGo (fuel + 1) inner buf nxt limit =
      nextGo fuel inner (bufInsert (bufErase buf nxt) o.index o) nxt limit := by
  have h1 : ¬ o.index < nxt := Nat.not_lt.mpr (Nat.le_of_lt hi)
  have h2 : o.index ≠ nxt := Nat.ne_of_gt hi
  simp [nextGo, h, hb, h1, h2]

lemma nextGo_inner_done {I O E D V : Type} {fuel nxt : Nat}
    {buf : List (Nat × Outcome I O E D V)} {limit : Option Nat}
    (h : limitReached limit nxt = false) (hb : bufGet buf nxt = none) :
    nextGo (fuel + 1) ([] : List (Outcome I O E D V)) buf nxt limit =
      .done ⟨[], buf, nxt, limit⟩ := by
  simp [nextGo, h, hb]

lemma nextGo_inner_panic {I O E D V : Type} {fuel nxt : Nat}
    {rest : List (Outcome I O E D V)} {buf : List (Nat × Outcome I O E D V)}
    {limit : Option Nat} {o : Outcome I O E D V}
    (h : limitReached limit nxt = false) (hb : bufGet buf nxt = none)
    (hi : o.index < nxt) :
    nextGo (fuel + 1) (o :: rest) buf nxt limit =
      .panicked ("duplicate result index") := by
  simp [nextGo, h, hb, hi]

lemma nextGo_inner_yield {I O E D V : Type} {fuel nxt : Nat}
    {rest : List (Outcome I O E D V)} {buf : List (Nat × Outcome I O E D V)}
    {limit : Option Nat} {o : Outcome I O E D V}
    (h : limitReached limit nxt = false) (hb : bufGet buf nxt = none)
    (hi : o.index = nxt) :
    nextGo (fuel + 1) (o :: rest) buf nxt limit =
      .yield o ⟨rest, buf, nxt + 1, limit⟩ := by
  simp [nextGo, h, hb, hi]

lemma nextGo_inner_cont {I O E D V : Type} {fuel nxt : Nat}
    {rest : List (Outcome I O E D V)} {buf : List (Nat × Outcome I O E D V)}
    {limit : Option Nat} {o : Outcome I O E D V}
    (h : limitReached limit nxt = false) (hb : bufGet buf nxt = none)
    (hi : nxt < o.index) :
    nextGo (fuel + 1) (o :: rest) buf nxt limit =
      nextGo fuel rest (bufInsert buf o.index o) nxt limit := by
  have h1 : ¬ o.index < nxt := Nat.not_lt.mpr (Nat.le_of_lt hi)
  have h2 : o.index ≠ nxt := Nat.ne_of_gt hi
  simp [nextGo, h, hb, h1, h2]

/- ----------------------------------------------------------------------
Shape of a yielded result: the cursor advances by one, the limit is
unchanged, and the total number of buffered plus upstream elements strictly
decreases.
---------------------------------------------------------------------- -/

lemma iterNext_mk {I O E D V : Type} (inner : List (Outcome I O E D V))
    (buf : List (Nat × Outcome I O E D V)) (nxt : Nat) (limit : Option Nat) :
    iterNext (⟨inner, buf, nxt, limit⟩ : OutcomeIterator I O E D V) =
      nextGo (inner.length + buf.length + 2) inner buf nxt limit := rfl

lemma nextGo_yield_shape {I O E D V : Type} :
    ∀ {fuel : Nat} {inner : List (Outcome I O E D V)}
      {buf : List (Nat × Outcome I O E D V)} {nxt : Nat} {limit : Option Nat}
      {o : Outcome I O E D V} {s' : OutcomeIterator I O E D V},
      nextGo fuel inner buf nxt limit = .yield o s' →
      ∃ inner' buf', s' = ⟨inner', buf', nxt + 1, limit⟩ ∧
        inner'.length + buf'.length < inner.length + buf.length := by
  intro fuel
  induction fuel with
  | zero =>
    intro inner buf nxt limit o s' h
    exact absurd h (by simp [nextGo])
  | succ fuel ih =>
    intro inner buf nxt limit o s' h
    cases hl : limitReached limit nxt with
    | true =>
      rw [nextGo_limit hl] at h
      exact absurd h (by simp)
    | false =>
      cases hb : bufGet buf nxt with
      | some o0 =>
        rcases Nat.lt_trichotomy o0.index nxt with hlt | heq | hgt
        · rw [nextGo_buf_panic hl hb hlt] at h
          exact absurd h (by simp)
        · rw [nextGo_buf_yield hl hb heq] at h
          injection h with h1 h2
          subst h1
          refine ⟨inner, bufErase buf nxt, h2.symm, ?_⟩
          have := bufErase_length hb
          omega
        · rw [nextGo_buf_cont hl hb hgt] at h
          obtain ⟨inner', buf', hs, hlen⟩ := ih h
          refine ⟨inner', buf', hs, ?_⟩
          have h1 := bufInsert_length_le (bufErase buf nxt) o0.index o0
          have h2 := bufErase_length hb
          omega
      | none =>
        cases inner with
        | nil =>
          rw [nextGo_inner_done hl hb] at h
          exact absurd h (by simp)
        | cons o0 rest =>
          rcases Nat.lt_trichotomy o0.index nxt with hlt | heq | hgt
          · rw [nextGo_inner_panic hl hb hlt] at h
            exact absurd h (by simp)
          · rw [nextGo_inner_yield hl hb heq] at h
            injection h with h1 h2
            subst h1
            exact ⟨rest, buf, h2.symm, by simp⟩
          · rw [nextGo_inner_cont hl hb hgt] at h
            obtain ⟨inner', buf', hs, hlen⟩ := ih h
            refine ⟨inner', buf', hs, ?_⟩
            have h1 := bufInsert_length_le buf o0.index o0
            simp only [List.length_cons]
            omega

/- ----------------------------------------------------------------------
A configured limit that the cursor has not reached yet plays no role in a
single call: the call behaves as with no limit, up to the limit recorded in
the returned states.
---------------------------------------------------------------------- -/

lemma nextGo_clearLimit {I O E D V : Type} {m : Nat} :
    ∀ {fuel : Nat} {inner : List (Outcome I O E D V)}
      {buf : List (Nat × Outcome I O E D V)} {nxt : Nat},
      nxt < m →
      nextGo fuel inner buf nxt none =
        nextResClearLimit (nextGo fuel inner buf nxt (some m)) := by
  intro fuel
  induction fuel with
  | zero =>
    intro inner buf nxt _
    rfl
  | succ fuel ih =>
    intro inner buf nxt hm
    have hlm : limitReached (some m) nxt = false := by
      simp only [limitReached, decide_eq_false_iff_not]
      omega
    have hln : limitReached (none : Option Nat) nxt = false := rfl
    cases hb : bufGet buf nxt with
    | some o0 =>
      rcases Nat.lt_trichotomy o0.index nxt with hlt | heq | hgt
      · rw [nextGo_buf_panic hln hb hlt, nextGo_buf_panic hlm hb hlt]
        rfl
      · rw [nextGo_buf_yield hln hb heq, nextGo_buf_yield hlm hb heq]
        rfl
      · rw [nextGo_buf_cont hln hb hgt, nextGo_buf_cont hlm hb hgt]
        exact ih hm
    | none =>
      cases inner with
      | nil =>
        rw [nextGo_inner_done hln hb, nextGo_inner_done hlm hb]
        rfl
      | cons o0 rest =>
        rcases Nat.lt_trichotomy o0.index nxt with hlt | heq | hgt
        · rw [nextGo_inner_panic hln hb hlt, nextGo_inner_panic hlm hb hlt]
          rfl
        · rw [nextGo_inner_yield hln hb heq, nextGo_inner_yield hlm hb heq]
          rfl
        · rw [nextGo_inner_cont hln hb hgt, nextGo_inner_cont hlm hb hgt]
          exact ih hm

lemma iterNext_nil {I O E D V : Type} {nxt : Nat} {limit : Option Nat} :
    iterNext (⟨[], [], nxt, limit⟩ : OutcomeIterator I O E D V) =
      .done ⟨[], [], nxt, limit⟩ := by
  rw [iterNext_mk]
  cases hl : limitReached limit nxt with
  | true => exact nextGo_limit hl
  | false => exact nextGo_inner_done hl rfl

lemma runGo_succ {I O E D V : Type} {fuel : Nat} {s : OutcomeIterator I O E D V} :
    runGo (fuel + 1) s =
      match iterNext s with
      | .yield o s' =>
        match runGo fuel s' with
        | .ok ys => .ok (o :: ys)
        | .error e => .error e
      | .done _ => .ok []
      | .panicked msg => .error msg
      | .fuelOut => .error ("fuel exhausted") := rfl

lemma runGo_yield {I O E D V : Type} {fuel : Nat} {s s' : OutcomeIterator I O E D V}
    {o : Outcome I O E D V} (hn : iterNext s = .yield o s') :
    runGo (fuel + 1) s =
      match runGo fuel s' with
      | .ok ys => .ok (o :: ys)
      | .error e => .error e := by
  rw [runGo_succ, hn]

lemma runGo_done {I O E D V : Type} {fuel : Nat} {s s2 : OutcomeIterator I O E D V}
    (hn : iterNext s = .done s2) : runGo (fuel + 1) s = .ok [] := by
  rw [runGo_succ, hn]

lemma runGo_panicked {I O E D V : Type} {fuel : Nat} {s : OutcomeIterator I O E D V}
    {msg : String} (hn : iterNext s = .panicked msg) :
    runGo (fuel + 1) s = .error msg := by
  rw [runGo_succ, hn]

lemma runGo_fuelOut {I O E D V : Type} {fuel : Nat} {s : OutcomeIterator I O E D V}
    (hn : iterNext s = .fuelOut) : runGo (fuel + 1) s = .error ("fuel exhausted") := by
  rw [runGo_succ, hn]

lemma runGo_fuel_mono {I O E D V : Type} :
    ∀ {f : Nat} (f' : Nat) {s : OutcomeIterator I O E D V},
      s.inner.length + s.buf.length ≤ f → f ≤ f' →
      runGo (f + 1) s = runGo (f' + 1) s := by
  intro f
  induction f with
  | zero =>
    intro f' s hsize _
    have hinner : s.inner = [] := List.length_eq_zero.mp (by omega)
    have hbuf : s.buf = [] := List.length_eq_zero.mp (by omega)
    have hs : s = ⟨[], [], s.next, s.limit⟩ := by
      cases s
      simp_all
    rw [hs, runGo_done iterNext_nil, runGo_done iterNext_nil]
  | succ f0 ih =>
    intro f' s hsize hle
    obtain ⟨f'', rfl⟩ : ∃ f'', f' = f'' + 1 := ⟨f' - 1, by omega⟩
    cases hn : iterNext s with
    | yield o s' =>
      have hgo : nextGo (s.inner.length + s.buf.length + 2) s.inner s.buf
          s.next s.limit = .yield o s' := hn
      obtain ⟨inner', buf', hs', hlen⟩ := nextGo_yield_shape hgo
      have hsize' : s'.inner.length + s'.buf.length ≤ f0 := by
        rw [hs']
        simp only []
        omega
      rw [runGo_yield hn, runGo_yield hn,
        ih f'' hsize' (by omega)]
    | done s2 => rw [runGo_done hn, runGo_done hn]
    | panicked msg => rw [runGo_panicked hn, runGo_panicked hn]
    | fuelOut => rw [runGo_fuelOut hn, runGo_fuelOut hn]

lemma runGo_limit_irrel {I O E D V : Type} :
    ∀ {fuel : Nat} {inner : List (Outcome I O E D V)}
      {buf : List (Nat × Outcome I O E D V)} {nxt m : Nat},
      nxt + inner.length + buf.length ≤ m →
      runGo fuel ⟨inner, buf, nxt, some m⟩ = runGo fuel ⟨inner, buf, nxt, none⟩ := by
  intro fuel
  induction fuel with
  | zero => intro inner buf nxt m _; rfl
  | succ fuel ih =>
    intro inner buf nxt m hm
    by_cases hlt : nxt < m
    · have hclear : iterNext (⟨inner, buf, nxt, none⟩ : OutcomeIterator I O E D V) =
          nextResClearLimit (iterNext ⟨inner, buf, nxt, some m⟩) := by
        rw [iterNext_mk, iterNext_mk]
        exact nextGo_clearLimit hlt
      cases hn : iterNext (⟨inner, buf, nxt, some m⟩ : OutcomeIterator I O E D V) with
      | yield o s' =>
        rw [hn] at hclear
        have hgo : nextGo (inner.length + buf.length + 2) inner buf nxt (some m) =
            .yield o s' := by
          rw [← iterNext_mk]
          exact hn
        obtain ⟨inner', buf', hs', hlen⟩ := nextGo_yield_shape hgo
        subst hs'
        have hclear2 : iterNext (⟨inner, buf, nxt, none⟩ : OutcomeIterator I O E D V) =
            .yield o ⟨inner', buf', nxt + 1, none⟩ := hclear
        rw [runGo_yield hn, runGo_yield hclear2, ih (by omega)]
      | done s2 =>
        rw [hn] at hclear
        rw [runGo_done hn, runGo_done hclear]
      | panicked msg =>
        rw [hn] at hclear
        rw [runGo_panicked hn, runGo_panicked hclear]
      | fuelOut =>
        rw [hn] at hclear
        rw [runGo_fuelOut hn, runGo_fuelOut hclear]
    · have hinner : inner = [] := List.length_eq_zero.mp (by omega)
      have hbuf : buf = [] := List.length_eq_zero.mp (by omega)
      subst hinner
      subst hbuf
      rw [runGo_done iterNext_nil, runGo_done iterNext_nil]

/- ----------------------------------------------------------------------
The reordering property: when the pending indices are exactly the range
starting at the cursor, each call yields the outcome with the cursor's index
and the run yields everything in ascending index order.
---------------------------------------------------------------------- -/

lemma limitReached_none {nxt : Nat} : limitReached none nxt = false := rfl

lemma nextGo_perm_yield {I O E D V : Type} :
    ∀ {inner : List (Outcome I O E D V)} (fuel : Nat)
      {buf : List (Nat × Outcome I O E D V)} {nxt : Nat},
      inner.length + 1 ≤ fuel → WFBuf buf →
      (Multiset.map Outcome.index (iterElems inner buf)).Nodup →
      nxt ∈ Multiset.map Outcome.index (iterElems inner buf) →
      (∀ i ∈ Multiset.map Outcome.index (iterElems inner buf), nxt ≤ i) →
      ∃ o inner' buf',
        nextGo fuel inner buf nxt none = .yield o ⟨inner', buf', nxt + 1, none⟩ ∧
        o.index = nxt ∧ WFBuf buf' ∧
        iterElems inner buf = o ::ₘ iterElems inner' buf' := by
  intro inner
  induction inner with
  | nil =>
    intro fuel buf nxt hfuel hwf hnodup hmem _
    obtain ⟨f, rfl⟩ : ∃ f, fuel = f + 1 := ⟨fuel - 1, by omega⟩
    cases hb : bufGet buf nxt with
    | some o =>
      have hoi : o.index = nxt := WFBuf_bufGet hwf hb
      refine ⟨o, [], bufErase buf nxt, nextGo_buf_yield limitReached_none hb hoi, hoi,
        WFBuf_bufErase hwf, ?_⟩
      rw [iterElems, iterElems, map_snd_erase hb, Multiset.add_cons]
    | none =>
      exfalso
      obtain ⟨o, ho, hoi⟩ := Multiset.mem_map.mp hmem
      have helems : iterElems ([] : List (Outcome I O E D V)) buf =
          ↑(buf.map Prod.snd) := by
        simp [iterElems]
      rw [helems] at ho
      obtain ⟨p, hp, hpo⟩ := List.mem_map.mp (Multiset.mem_coe.mp ho)
      obtain ⟨pk, pv⟩ := p
      have hkey : pk = nxt := by
        have hw := hwf (pk, pv) hp
        simp only [] at hw hpo
        rw [hpo, hoi] at hw
        exact hw.symm
      subst hkey
      exact bufGet_none_not_mem hb hp
  | cons o0 rest ih =>
    intro fuel buf nxt hfuel hwf hnodup hmem hbound
    obtain ⟨f, rfl⟩ : ∃ f, fuel = f + 1 := ⟨fuel - 1, by omega⟩
    cases hb : bufGet buf nxt with
    | some o =>
      have hoi : o.index = nxt := WFBuf_bufGet hwf hb
      refine ⟨o, o0 :: rest, bufErase buf nxt, nextGo_buf_yield limitReached_none hb hoi, hoi,
        WFBuf_bufErase hwf, ?_⟩
      rw [iterElems, iterElems, map_snd_erase hb, Multiset.add_cons]
    | none =>
      have ho0 : o0.index ∈ Multiset.map Outcome.index (iterElems (o0 :: rest) buf) := by
        refine Multiset.mem_map.mpr ⟨o0, ?_, rfl⟩
        rw [iterElems]
        exact Multiset.mem_add.mpr (Or.inl (Multiset.mem_coe.mpr (List.mem_cons_self o0 rest)))
      have hge : nxt ≤ o0.index := hbound _ ho0
      rcases Nat.eq_or_lt_of_le hge with heq | hgt
      · refine ⟨o0, rest, buf, nextGo_inner_yield limitReached_none hb heq.symm, heq.symm, hwf, ?_⟩
        rw [iterElems, iterElems, ← Multiset.cons_coe, Multiset.cons_add]
      · have hnone2 : bufGet buf o0.index = none := by
          cases hbo : bufGet buf o0.index with
          | none => rfl
          | some w =>
            exfalso
            have hw : w.index = o0.index := WFBuf_bufGet hwf hbo
            have hwmem : w ∈ buf.map Prod.snd :=
              List.mem_map.mpr ⟨(o0.index, w), bufGet_mem hbo, rfl⟩
            have h1 : o0.index ∈ Multiset.map Outcome.index (↑(o0 :: rest) :
                Multiset (Outcome I O E D V)) :=
              Multiset.mem_map.mpr ⟨o0, Multiset.mem_coe.mpr (List.mem_cons_self o0 rest), rfl⟩
            have h2 : o0.index ∈ Multiset.map Outcome.index (↑(buf.map Prod.snd) :
                Multiset (Outcome I O E D V)) :=
              Multiset.mem_map.mpr ⟨w, Multiset.mem_coe.mpr hwmem, hw⟩
            have hcount : 2 ≤ Multiset.count o0.index
                (Multiset.map Outcome.index (iterElems (o0 :: rest) buf)) := by
              rw [iterElems, Multiset.map_add, Multiset.count_add]
              have c1 := Multiset.one_le_count_iff_mem.mpr h1
              have c2 := Multiset.one_le_count_iff_mem.mpr h2
              omega
            have hle := Multiset.nodup_iff_count_le_one.mp hnodup o0.index
            omega
        have hins : bufInsert buf o0.index o0 = (o0.index, o0) :: buf := by
          rw [bufInsert, bufErase_of_none hnone2]
        have helems2 : iterElems rest ((o0.index, o0) :: buf) =
            iterElems (o0 :: rest) buf := by
          rw [iterElems, iterElems, List.map_cons, ← Multiset.cons_coe,
            ← Multiset.cons_coe, Multiset.cons_add, Multiset.add_cons]
        have hwf2 : WFBuf ((o0.index, o0) :: buf) := by
          rw [← hins]
          exact WFBuf_bufInsert hwf
        have hfuel2 : rest.length + 1 ≤ f := by
          simp only [List.length_cons] at hfuel
          omega
        have hnodup2 : (Multiset.map Outcome.index
            (iterElems rest ((o0.index, o0) :: buf))).Nodup := by
          rw [helems2]
          exact hnodup
        have hmem2 : nxt ∈ Multiset.map Outcome.index
            (iterElems rest ((o0.index, o0) :: buf)) := by
          rw [helems2]
          exact hmem
        have hbound2 : ∀ i ∈ Multiset.map Outcome.index
            (iterElems rest ((o0.index, o0) :: buf)), nxt ≤ i := by
          rw [helems2]
          exact hbound
        obtain ⟨o, inner', buf', heq, hoi, hwf', helems'⟩ :=
          ih f hfuel2 hwf2 hnodup2 hmem2 hbound2
        refine ⟨o, inner', buf', ?_, hoi, hwf', ?_⟩
        · rw [nextGo_inner_cont limitReached_none hb hgt, hins]
          exact heq
        · rw [← helems2, helems']

lemma runGo_perm {I O E D V : Type} :
    ∀ (k fuel : Nat) {inner : List (Outcome I O E D V)}
      {buf : List (Nat × Outcome I O E D V)} {nxt : Nat},
      WFBuf buf →
      Multiset.map Outcome.index (iterElems inner buf) = ↑(List.range' nxt k) →
      k + 1 ≤ fuel →
      ∃ ys, runGo fuel ⟨inner, buf, nxt, none⟩ = .ok ys ∧
        ys.map Outcome.index = List.range' nxt k ∧
        (↑ys : Multiset (Outcome I O E D V)) = iterElems inner buf := by
  intro k
  induction k with
  | zero =>
    intro fuel inner buf nxt hwf hel hfuel
    obtain ⟨f, rfl⟩ : ∃ f, fuel = f + 1 := ⟨fuel - 1, by omega⟩
    have h0 : iterElems inner buf = 0 := by
      have hm : Multiset.map Outcome.index (iterElems inner buf) = 0 := by
        rw [hel]
        rfl
      exact Multiset.map_eq_zero.mp hm
    have hlen : inner.length + (buf.map Prod.snd).length = 0 := by
      have hcard := congrArg Multiset.card h0
      rwa [iterElems, Multiset.card_add, Multiset.coe_card, Multiset.coe_card,
        Multiset.card_zero] at hcard
    have hinner : inner = [] := List.length_eq_zero.mp (by omega)
    have hbuf : buf = [] := by
      refine List.length_eq_zero.mp ?_
      have hm := List.length_map buf Prod.snd
      omega
    subst hinner
    subst hbuf
    exact ⟨[], runGo_done iterNext_nil, rfl, h0.symm⟩
  | succ k ihk =>
    intro fuel inner buf nxt hwf hel hfuel
    obtain ⟨f, rfl⟩ : ∃ f, fuel = f + 1 := ⟨fuel - 1, by omega⟩
    have hnodup : (Multiset.map Outcome.index (iterElems inner buf)).Nodup := by
      rw [hel]
      exact Multiset.coe_nodup.mpr (List.nodup_range' nxt (k + 1))
    have hmem : nxt ∈ Multiset.map Outcome.index (iterElems inner buf) := by
      rw [hel]
      exact Multiset.mem_coe.mpr (List.mem_range'_1.mpr ⟨Nat.le_refl nxt, by omega⟩)
    have hbound : ∀ i ∈ Multiset.map Outcome.index (iterElems inner buf), nxt ≤ i := by
      intro i hi
      rw [hel] at hi
      exact (List.mem_range'_1.mp (Multiset.mem_coe.mp hi)).1
    obtain ⟨o, inner', buf', heq, hoi, hwf', helems⟩ :=
      nextGo_perm_yield (inner.length + buf.length + 2) (by omega)
        hwf hnodup hmem hbound
    have hn : iterNext (⟨inner, buf, nxt, none⟩ : OutcomeIterator I O E D V) =
        .yield o ⟨inner', buf', nxt + 1, none⟩ := by
      rw [iterNext_mk]
      exact heq
    have hel' : Multiset.map Outcome.index (iterElems inner' buf') =
        ↑(List.range' (nxt + 1) k) := by
      have h1 : Multiset.map Outcome.index (iterElems inner buf) =
          nxt ::ₘ Multiset.map Outcome.index (iterElems inner' buf') := by
        rw [helems, Multiset.map_cons, hoi]
      rw [hel] at h1
      have h2 : (↑(List.range' nxt (k + 1)) : Multiset Nat) =
          nxt ::ₘ ↑(List.range' (nxt + 1) k) := by
        rw [List.range'_succ, ← Multiset.cons_coe]
      rw [h2] at h1
      exact ((Multiset.cons_inj_right nxt).mp h1).symm
    obtain ⟨ys', hrun', hmap', hys'⟩ := ihk f hwf' hel' (by omega)
    refine ⟨o :: ys', ?_, ?_, ?_⟩
    · rw [runGo_yield hn, hrun']
    · rw [List.map_cons, hmap', hoi, List.range'_succ]
    · rw [← Multiset.cons_coe, hys', helems]

/- ----------------------------------------------------------------------
Characterizations of the end-of-sequence, duplicate-index and termination
behavior of a single `next` call.
---------------------------------------------------------------------- -/

lemma nextGo_done_iff_aux {I O E D V : Type} :
    ∀ {inner : List (Outcome I O E D V)} (fuel : Nat)
      {buf : List (Nat × Outcome I O E D V)} {nxt : Nat} {limit : Option Nat},
      inner.length + 1 ≤ fuel → WFBuf buf → limitReached limit nxt = false →
      ((∃ s', nextGo fuel inner buf nxt limit = .done s') ↔
        (bufGet buf nxt = none ∧ ∀ o ∈ inner, nxt < o.index)) := by
  intro inner
  induction inner with
  | nil =>
    intro fuel buf nxt limit hfuel hwf hl
    obtain ⟨f, rfl⟩ : ∃ f, fuel = f + 1 := ⟨fuel - 1, by omega⟩
    cases hb : bufGet buf nxt with
    | some o =>
      have hoi : o.index = nxt := WFBuf_bufGet hwf hb
      rw [nextGo_buf_yield hl hb hoi]
      simp
    | none =>
      rw [nextGo_inner_done hl hb]
      simp
  | cons o0 rest ih =>
    intro fuel buf nxt limit hfuel hwf hl
    obtain ⟨f, rfl⟩ : ∃ f, fuel = f + 1 := ⟨fuel - 1, by omega⟩
    cases hb : bufGet buf nxt with
    | some o =>
      have hoi : o.index = nxt := WFBuf_bufGet hwf hb
      rw [nextGo_buf_yield hl hb hoi]
      simp [hb]
    | none =>
      rcases Nat.lt_trichotomy o0.index nxt with hlt | heq | hgt
      · rw [nextGo_inner_panic hl hb hlt]
        constructor
        · intro ⟨s', hs'⟩
          exact absurd hs' (by simp)
        · intro ⟨_, hall⟩
          have := hall o0 (List.mem_cons_self o0 rest)
          omega
      · rw [nextGo_inner_yield hl hb heq]
        constructor
        · intro ⟨s', hs'⟩
          exact absurd hs' (by simp)
        · intro ⟨_, hall⟩
          have := hall o0 (List.mem_cons_self o0 rest)
          omega
      · rw [nextGo_inner_cont hl hb hgt]
        have hfuel2 : rest.length + 1 ≤ f := by
          simp only [List.length_cons] at hfuel
          omega
        have hwf2 : WFBuf (bufInsert buf o0.index o0) := WFBuf_bufInsert hwf
        rw [ih f hfuel2 hwf2 hl,
          bufGet_insert_ne buf o0 (Nat.ne_of_gt hgt)]
        constructor
        · intro ⟨_, h2⟩
          refine ⟨rfl, ?_⟩
          intro o ho
          rcases List.mem_cons.mp ho with rfl | ho2
          · exact hgt
          · exact h2 o ho2
        · intro ⟨_, h2⟩
          exact ⟨hb, fun o ho => h2 o (List.mem_cons_of_mem _ ho)⟩

lemma nextGo_dup_panic_aux {I O E D V : Type} :
    ∀ {pre : List (Outcome I O E D V)} (fuel : Nat)
      {buf : List (Nat × Outcome I O E D V)} {nxt : Nat}
      {o : Outcome I O E D V} {rest : List (Outcome I O E D V)},
      pre.length + 1 ≤ fuel → WFBuf buf → bufGet buf nxt = none →
      (∀ p ∈ pre, nxt < p.index) → o.index < nxt →
      nextGo fuel (pre ++ o :: rest) buf nxt none =
        .panicked ("duplicate result index") := by
  intro pre
  induction pre with
  | nil =>
    intro fuel buf nxt o rest hfuel hwf hb _ hlt
    obtain ⟨f, rfl⟩ : ∃ f, fuel = f + 1 := ⟨fuel - 1, by omega⟩
    rw [List.nil_append]
    exact nextGo_inner_panic limitReached_none hb hlt
  | cons p pre' ih =>
    intro fuel buf nxt o rest hfuel hwf hb hpre hlt
    obtain ⟨f, rfl⟩ : ∃ f, fuel = f + 1 := ⟨fuel - 1, by omega⟩
    have hp : nxt < p.index := hpre p (List.mem_cons_self p pre')
    rw [List.cons_append, nextGo_inner_cont limitReached_none hb hp]
    refine ih f ?_ (WFBuf_bufInsert hwf) ?_ ?_ hlt
    · simp only [List.length_cons] at hfuel
      omega
    · rw [bufGet_insert_ne buf p (Nat.ne_of_gt hp)]
      exact hb
    · exact fun q hq => hpre q (List.mem_cons_of_mem _ hq)

lemma nextGo_fuel_irrel_wf {I O E D V : Type} :
    ∀ {inner : List (Outcome I O E D V)} (fuel fuel' : Nat)
      {buf : List (Nat × Outcome I O E D V)} (nxt : Nat) (limit : Option Nat),
      WFBuf buf → inner.length + 1 ≤ fuel → inner.length + 1 ≤ fuel' →
      nextGo fuel inner buf nxt limit = nextGo fuel' inner buf nxt limit ∧
      nextGo fuel inner buf nxt limit ≠ .fuelOut := by
  intro inner
  induction inner with
  | nil =>
    intro fuel fuel' buf nxt limit hwf hfuel hfuel'
    obtain ⟨f, rfl⟩ : ∃ f, fuel = f + 1 := ⟨fuel - 1, by omega⟩
    obtain ⟨f', rfl⟩ : ∃ g, fuel' = g + 1 := ⟨fuel' - 1, by omega⟩
    cases hl : limitReached limit nxt with
    | true => rw [nextGo_limit hl, nextGo_limit hl]; simp
    | false =>
      cases hb : bufGet buf nxt with
      | some o =>
        have hoi : o.index = nxt := WFBuf_bufGet hwf hb
        rw [nextGo_buf_yield hl hb hoi, nextGo_buf_yield hl hb hoi]
        simp
      | none =>
        rw [nextGo_inner_done hl hb, nextGo_inner_done hl hb]
        simp
  | cons o0 rest ih =>
    intro fuel fuel' buf nxt limit hwf hfuel hfuel'
    obtain ⟨f, rfl⟩ : ∃ f, fuel = f + 1 := ⟨fuel - 1, by omega⟩
    obtain ⟨f', rfl⟩ : ∃ g, fuel' = g + 1 := ⟨fuel' - 1, by omega⟩
    cases hl : limitReached limit nxt with
    | true => rw [nextGo_limit hl, nextGo_limit hl]; simp
    | false =>
      cases hb : bufGet buf nxt with
      | some o =>
        have hoi : o.index = nxt := WFBuf_bufGet hwf hb
        rw [nextGo_buf_yield hl hb hoi, nextGo_buf_yield hl hb hoi]
        simp
      | none =>
        rcases Nat.lt_trichotomy o0.index nxt with hlt | heq | hgt
        · rw [nextGo_inner_panic hl hb hlt, nextGo_inner_panic hl hb hlt]
          simp
        · rw [nextGo_inner_yield hl hb heq, nextGo_inner_yield hl hb heq]
          simp
        · rw [nextGo_inner_cont hl hb hgt, nextGo_inner_cont hl hb hgt]
          have hfuel2 : rest.length + 1 ≤ f := by
            simp only [List.length_cons] at hfuel
            omega
          have hfuel2' : rest.length + 1 ≤ f' := by
            simp only [List.length_cons] at hfuel'
            omega
          exact ih f f' nxt limit (WFBuf_bufInsert hwf) hfuel2 hfuel2'

/- ----------------------------------------------------------------------
General list helpers used by the map-scenario claims.
---------------------------------------------------------------------- -/

lemma eq_of_perm_of_map_eq {α β : Type} (f : α → β) :
    ∀ {l₂ l₁ : List α}, l₁.Perm l₂ → l₁.map f = l₂.map f →
      (l₂.map f).Nodup → l₁ = l₂ := by
  intro l₂
  induction l₂ with
  | nil =>
    intro l₁ hperm _ _
    exact hperm.eq_nil
  | cons b t₂ ih =>
    intro l₁ hperm hmap hnodup
    cases l₁ with
    | nil => exact absurd hperm.symm (by simp)
    | cons a t₁ =>
      simp only [List.map_cons] at hmap
      have hfa : f a = f b := (List.cons.inj hmap).1
      have hmapt : t₁.map f = t₂.map f := (List.cons.inj hmap).2
      simp only [List.map_cons, List.nodup_cons] at hnodup
      have hmem : a ∈ b :: t₂ := hperm.mem_iff.mp (List.mem_cons_self a t₁)
      rcases List.mem_cons.mp hmem with rfl | hmem2
      · have ht : t₁ = t₂ := ih hperm.cons_inv hmapt hnodup.2
        rw [ht]
      · exfalso
        have : f a ∈ t₂.map f := List.mem_map_of_mem f hmem2
        rw [hfa] at this
        exact hnodup.1 this

lemma collectOutputs_all_success {I O E D V : Type} :
    ∀ {l : List (Outcome I O E D V)},
      (∀ o ∈ l, (Outcome.unwrapModel o).isSome) →
      collectOutputs l = some (l.filterMap Outcome.unwrapModel) := by
  intro l
  induction l with
  | nil => intro _; rfl
  | cons o rest ih =>
    intro h
    have ho := h o (List.mem_cons_self o rest)
    obtain ⟨v, hv⟩ := Option.isSome_iff_exists.mp ho
    have hrest := ih (fun q hq => h q (List.mem_cons_of_mem _ hq))
    simp [collectOutputs, hv, hrest, List.filterMap_cons]

lemma limitReached_iff {limit : Option Nat} {nxt : Nat} :
    limitReached limit nxt = true ↔ ∃ l, limit = some l ∧ l ≤ nxt := by
  cases limit with
  | none => simp [limitReached]
  | some l => simp [limitReached]

/- ----------------------------------------------------------------------
Claim theorems.
---------------------------------------------------------------------- -/

/-- C1: For every finite upstream iterator of outcomes whose indices form a
permutation of 0..n, the ordered iterator produced by `into_ordered`
(`OutcomeIterator::new`) yields all n outcomes, in strictly ascending index
order starting at 0, each outcome appearing exactly once. (The concrete
instance with index sequence [2,0,1,4,3] is evaluated in the witness.) -/
theorem C1_into_ordered_reassembles {I O E D V : Type}
    (xs : List (Outcome I O E D V)) (n : Nat)
    (hperm : (xs.map Outcome.index).Perm (List.range n)) :
    ∃ ys, intoOrderedRun xs = .ok ys ∧
      ys.map Outcome.index = List.range n ∧ ys.Perm xs := by
  have hlen : xs.length = n := by
    have h := hperm.length_eq
    simpa using h
  have hel : Multiset.map Outcome.index
      (iterElems xs ([] : List (Nat × Outcome I O E D V))) = ↑(List.range' 0 n) := by
    have h1 : iterElems xs ([] : List (Nat × Outcome I O E D V)) = ↑xs := by
      simp [iterElems]
    rw [h1, Multiset.map_coe, Multiset.coe_eq_coe, ← List.range_eq_range']
    exact hperm
  obtain ⟨ys, hrun, hmap, hys⟩ := runGo_perm n (xs.length + 1)
    (fun p hp => absurd hp (List.not_mem_nil p)) hel (by omega)
  refine ⟨ys, hrun, ?_, ?_⟩
  · rw [hmap, ← List.range_eq_range']
  · have h2 : (↑ys : Multiset (Outcome I O E D V)) = ↑xs := by
      rw [hys]
      simp [iterElems]
    exact Multiset.coe_eq_coe.mp h2

/-- Witness for C1: the scenario S6 input, outcomes arriving with indices
[2,0,1,4,3], is reassembled as indices [0,1,2,3,4]. -/
theorem C1_witness :
    (∃ ys, intoOrderedRun
        ([Outcome.success 2 12, Outcome.success 0 10, Outcome.success 1 11,
          Outcome.success 4 14, Outcome.success 3 13] :
          List (Outcome Nat Nat Nat Nat Nat)) = .ok ys ∧
      ys.map Outcome.index = List.range 5 ∧
      ys.Perm [Outcome.success 2 12, Outcome.success 0 10, Outcome.success 1 11,
        Outcome.success 4 14, Outcome.success 3 13]) ∧
    intoOrderedRun
        ([Outcome.success 2 12, Outcome.success 0 10, Outcome.success 1 11,
          Outcome.success 4 14, Outcome.success 3 13] :
          List (Outcome Nat Nat Nat Nat Nat)) =
      .ok [Outcome.success 0 10, Outcome.success 1 11, Outcome.success 2 12,
        Outcome.success 3 13, Outcome.success 4 14] :=
  ⟨C1_into_ordered_reassembles _ 5 (by decide), by decide⟩

/-- C2 counterexample: with upstream [index 1, index 0] and n = 1,
`take_ordered(1)` yields nothing (the upstream is truncated to its first
element before reordering) while `into_ordered().take(1)` yields the outcome
with index 0, so the two differ. -/
theorem C2_counterexample :
    takeOrderedRun 1
        ([Outcome.success 1 11, Outcome.success 0 10] :
          List (Outcome Nat Nat Nat Nat Nat)) ≠
      Except.map (List.take 1)
        (intoOrderedRun
          ([Outcome.success 1 11, Outcome.success 0 10] :
            List (Outcome Nat Nat Nat Nat Nat))) := by
  decide

/-- C2 (amended): `take_ordered(n)` equals `into_ordered` applied to the
first n upstream outcomes -- the upstream is truncated with `take(limit)`
before reordering, and the configured limit then never cuts the sequence.
It coincides with `into_ordered().take(n)` only when the first n upstream
items are the ones with the n smallest pending indices (e.g. an upstream
already in ascending index order). -/
theorem C2_amended_take_ordered {I O E D V : Type} (n : Nat)
    (xs : List (Outcome I O E D V)) :
    takeOrderedRun n xs = intoOrderedRun (xs.take n) := by
  have hlen : (xs.take n).length ≤ n := by
    simp [List.length_take]
  have h1 : runGo (n + 1) (⟨xs.take n, [], 0, some n⟩ : OutcomeIterator I O E D V) =
      runGo (n + 1) (⟨xs.take n, [], 0, none⟩ : OutcomeIterator I O E D V) :=
    runGo_limit_irrel (by simpa using hlen)
  have h2 : runGo (n + 1) (⟨xs.take n, [], 0, none⟩ : OutcomeIterator I O E D V) =
      runGo ((xs.take n).length + 1)
        (⟨xs.take n, [], 0, none⟩ : OutcomeIterator I O E D V) := by
    refine (runGo_fuel_mono n ?_ hlen).symm
    simp
  exact h1.trans h2

/-- C3: Whenever the loop of `OutcomeIterator::next` pulls from the upstream
an outcome whose index is strictly below the current cursor (after first
buffering any number of higher-indexed outcomes), the call panics with
"duplicate result index" instead of yielding, skipping or buffering it. -/
theorem C3_duplicate_index_panics {I O E D V : Type}
    (buf : List (Nat × Outcome I O E D V)) (nxt : Nat)
    (pre rest : List (Outcome I O E D V)) (o : Outcome I O E D V)
    (hwf : WFBuf buf) (hb : bufGet buf nxt = none)
    (hpre : ∀ p ∈ pre, nxt < p.index) (hdup : o.index < nxt) :
    iterNext ⟨pre ++ o :: rest, buf, nxt, none⟩ =
      .panicked ("duplicate result index") := by
  rw [iterNext_mk]
  refine nextGo_dup_panic_aux ((pre ++ o :: rest).length + buf.length + 2) ?_ hwf hb hpre hdup
  have h := List.length_append pre (o :: rest)
  simp only [List.length_cons] at h
  omega

/-- Witness for C3: a duplicate of index 0 arriving while the cursor is at 1
panics. -/
theorem C3_witness :
    iterNext (⟨[] ++ (Outcome.success 0 5 : Outcome Nat Nat Nat Nat Nat) :: [],
        [], 1, none⟩ : OutcomeIterator Nat Nat Nat Nat Nat) =
      .panicked ("duplicate result index") :=
  C3_duplicate_index_panics [] 1 [] [] (Outcome.success 0 5)
    (by decide) rfl (by decide) (by decide)

/-- C4: a call to `OutcomeIterator::next` ends the sequence (returns `None`,
without an error) exactly when either a limit is configured and the cursor
has reached it, or the upstream gets exhausted during the call with no
outcome of the cursor's index in the buffer -- equivalently, in terms of the
call's inputs: the buffer misses the cursor and every remaining upstream
outcome has a strictly larger index (those get buffered, so higher-indexed
buffered outcomes may remain). -/
theorem C4_next_done_iff {I O E D V : Type}
    (inner : List (Outcome I O E D V)) (buf : List (Nat × Outcome I O E D V))
    (nxt : Nat) (limit : Option Nat) (hwf : WFBuf buf) :
    (∃ s', iterNext ⟨inner, buf, nxt, limit⟩ = .done s') ↔
      ((∃ l, limit = some l ∧ l ≤ nxt) ∨
        (bufGet buf nxt = none ∧ ∀ o ∈ inner, nxt < o.index)) := by
  rw [iterNext_mk]
  cases hl : limitReached limit nxt with
  | true =>
    have hsplit : inner.length + buf.length + 2 =
        (inner.length + buf.length + 1) + 1 := rfl
    rw [hsplit, nextGo_limit hl]
    constructor
    · intro _
      exact Or.inl (limitReached_iff.mp hl)
    · intro _
      exact ⟨_, rfl⟩
  | false =>
    rw [nextGo_done_iff_aux (inner.length + buf.length + 2)
      (by omega) hwf hl]
    have hnol : ¬ ∃ l, limit = some l ∧ l ≤ nxt := by
      intro hex
      have h := limitReached_iff.mpr hex
      rw [hl] at h
      exact absurd h (by simp)
    constructor
    · exact fun h => Or.inr h
    · intro h
      rcases h with h | h
      · exact absurd h hnol
      · exact h

/-- Witness for C4: with an empty upstream and empty buffer the iterator ends
(the gap case), and with the cursor at a configured limit it ends (the limit
case). -/
theorem C4_witness :
    ∃ s', iterNext (⟨[Outcome.success 3 9], [], 1, none⟩ :
      OutcomeIterator Nat Nat Nat Nat Nat) = .done s' :=
  (C4_next_done_iff [Outcome.success 3 9] [] 1 none (by decide)).mpr
    (Or.inr (by decide))

/-- C5: converting an `Outcome` into a `TaskResult` maps `Success` to `Ok`
with its value, `Failure` and `MaxRetriesAttempted` to `Err` with their
error, resumes unwinding with the captured payload for `Panic`, and panics
for `Unprocessed`. -/
theorem C5_task_result_conversion {I O E D V : Type} :
    ∀ (i : Nat) (v : O) (inp : Option I) (inp2 : I) (e : E) (p : Panic D V),
      Outcome.intoTaskResult (Outcome.success i v : Outcome I O E D V) =
        .ok v ∧
      Outcome.intoTaskResult (Outcome.failure i inp e : Outcome I O E D V) =
        .err e ∧
      Outcome.intoTaskResult
        (Outcome.maxRetriesAttempted i inp2 e : Outcome I O E D V) = .err e ∧
      Outcome.intoTaskResult (Outcome.panicked i inp p : Outcome I O E D V) =
        .resumeUnwinding p.payload ∧
      Outcome.intoTaskResult (Outcome.unprocessed i inp2 : Outcome I O E D V) =
        .panicAbort := by
  intro i v inp inp2 e p
  exact ⟨rfl, rfl, rfl, rfl, rfl⟩

/-- C6: `Panic::try_call` returns `Ok(v)` when the call returns `v` normally
and `Err(Panic { payload, detail })` when the call unwinds with `payload`;
every call ends in one of the two, so no panic escapes. -/
theorem C6_try_call_catches {T O V : Type} :
    ∀ (detail : Option T) (v : O) (p : PanicPayloadM V) (f : CallOutcome O V),
      Panic.try_call (T := T) (V := V) detail (CallOutcome.returns v) = Except.ok v ∧
      Panic.try_call (O := O) detail (CallOutcome.unwinds p) =
        Except.error ⟨p, detail⟩ ∧
      ((∃ w, Panic.try_call detail f = Except.ok w ∧ f = CallOutcome.returns w) ∨
        (∃ q, Panic.try_call detail f = Except.error ⟨q, detail⟩ ∧
          f = CallOutcome.unwinds q)) := by
  intro detail v p f
  refine ⟨rfl, rfl, ?_⟩
  cases f with
  | returns w => exact Or.inl ⟨w, rfl, rfl⟩
  | unwinds q => exact Or.inr ⟨q, rfl, rfl⟩

/-- C7 (code bug): evaluated on two `Panic` values whose payloads have
different runtime type ids (0 and 1) and equal details, the equality as
written in src/panic.rs returns `true`, because it compares the type id of
the `Box` itself (one constant); the equality described by the spec
(`eqSpec`) is `false` there. -/
theorem C7_eq_ignores_payload_type :
    Panic.eqCode (⟨⟨0, 0⟩, none⟩ : Panic Nat Nat) ⟨⟨1, 0⟩, none⟩ = true ∧
    (⟨⟨0, 0⟩, (none : Option Nat)⟩ : Panic Nat Nat).payload.typeId ≠
      (⟨⟨1, 0⟩, (none : Option Nat)⟩ : Panic Nat Nat).payload.typeId ∧
    (⟨⟨0, 0⟩, (none : Option Nat)⟩ : Panic Nat Nat).detail =
      (⟨⟨1, 0⟩, (none : Option Nat)⟩ : Panic Nat Nat).detail ∧
    Panic.eqSpec (⟨⟨0, 0⟩, none⟩ : Panic Nat Nat) ⟨⟨1, 0⟩, none⟩ = false := by
  decide

/-- C9: for the default std::sync::mpsc receiver, `try_recv_msg` returns
`Received(t)` exactly when `try_recv` returns `Ok(t)`, `ChannelEmpty` exactly
when it reports the channel empty, `ChannelDisconnected` exactly when it
reports all senders dropped, and always one of the three. -/
theorem C9_try_recv_classification {T : Type} :
    ∀ (r : Except TryRecvError T) (t : T),
      (try_recv_msg r = Message.received t ↔ r = Except.ok t) ∧
      (try_recv_msg r = Message.channelEmpty ↔
        r = Except.error TryRecvError.empty) ∧
      (try_recv_msg r = Message.channelDisconnected ↔
        r = Except.error TryRecvError.disconnected) ∧
      ((∃ u, try_recv_msg r = Message.received u) ∨
        try_recv_msg r = Message.channelEmpty ∨
        try_recv_msg r = Message.channelDisconnected) := by
  intro r t
  cases r with
  | ok u =>
    refine ⟨?_, ?_, ?_, Or.inl ⟨u, rfl⟩⟩ <;> simp [try_recv_msg]
  | error e =>
    cases e with
    | empty =>
      refine ⟨?_, ?_, ?_, Or.inr (Or.inl rfl)⟩ <;> simp [try_recv_msg]
    | disconnected =>
      refine ⟨?_, ?_, ?_, Or.inr (Or.inr rfl)⟩ <;> simp [try_recv_msg]

/-- C10: for a well-formed buffer, one call to the `OutcomeIterator::next`
loop needs at most one more pass than the number of remaining upstream
elements: any iteration budget of at least `inner.length + 1` produces the
same result as the canonical call, and the call never runs out of fuel --
every pass either returns or moves one upstream element into the buffer. -/
theorem C10_next_terminates {I O E D V : Type}
    (inner : List (Outcome I O E D V)) (buf : List (Nat × Outcome I O E D V))
    (nxt : Nat) (limit : Option Nat) (fuel : Nat)
    (hwf : WFBuf buf) (hfuel : inner.length + 1 ≤ fuel) :
    nextGo fuel inner buf nxt limit = iterNext ⟨inner, buf, nxt, limit⟩ ∧
    iterNext ⟨inner, buf, nxt, limit⟩ ≠ NextRes.fuelOut := by
  have h1 := nextGo_fuel_irrel_wf fuel (inner.length + buf.length + 2)
    nxt limit hwf hfuel (by omega)
  rw [iterNext_mk]
  refine ⟨h1.1, ?_⟩
  rw [← h1.1]
  exact h1.2

/-- Witness for C10: a two-element out-of-order upstream is handled within
the stated budget of three passes. -/
theorem C10_witness :
    nextGo 3 ([Outcome.success 1 11, Outcome.success 0 10] :
        List (Outcome Nat Nat Nat Nat Nat)) [] 0 none =
      iterNext (⟨[Outcome.success 1 11, Outcome.success 0 10], [], 0, none⟩ :
        OutcomeIterator Nat Nat Nat Nat Nat) ∧
    iterNext (⟨[Outcome.success 1 11, Outcome.success 0 10], [], 0, none⟩ :
        OutcomeIterator Nat Nat Nat Nat Nat) ≠ NextRes.fuelOut :=
  C10_next_terminates _ _ 0 none 3 (by decide) (by decide)

/-- C8: with num_threads = 4 (any positive thread count produces the same
outcome set) and inputs 2..9, `util::map` with `f(i) = i + 1` collects, for
every arrival order of the outcomes, outputs summing to 42; reordered by
index, the outcomes are exactly `Success {i, inputs[i] + 1}` for i = 0..6,
whose values are [3,4,5,6,7,8,9]. -/
theorem C8_pure_map_scenario (arr : List (Outcome Nat Nat Nat Nat Nat))
    (hperm : arr.Perm (hiveMapOutcomes 4 (List.range' 2 7) (fun i => i + 1))) :
    (∃ outs, collectOutputs arr = some outs ∧ outs.sum = 42) ∧
    intoOrderedRun arr =
      .ok (hiveMapOutcomes 4 (List.range' 2 7) (fun i => i + 1)) ∧
    (hiveMapOutcomes 4 (List.range' 2 7) (fun i => i + 1) :
        List (Outcome Nat Nat Nat Nat Nat)).filterMap Outcome.unwrapModel =
      [3, 4, 5, 6, 7, 8, 9] := by
  have hconc : ∀ o ∈ (hiveMapOutcomes 4 (List.range' 2 7) (fun i => i + 1) :
      List (Outcome Nat Nat Nat Nat Nat)), (Outcome.unwrapModel o).isSome := by
    decide
  have hallsome : ∀ o ∈ arr, (Outcome.unwrapModel o).isSome :=
    fun o ho => hconc o (hperm.subset ho)
  have hcollect := collectOutputs_all_success hallsome
  have hpermf : (arr.filterMap Outcome.unwrapModel).Perm
      ((hiveMapOutcomes 4 (List.range' 2 7) (fun i => i + 1) :
        List (Outcome Nat Nat Nat Nat Nat)).filterMap Outcome.unwrapModel) :=
    hperm.filterMap _
  have hsum : (arr.filterMap Outcome.unwrapModel).sum = 42 := by
    rw [hpermf.sum_eq]
    decide
  refine ⟨⟨arr.filterMap Outcome.unwrapModel, hcollect, hsum⟩, ?_, by decide⟩
  have hidxconc : (hiveMapOutcomes 4 (List.range' 2 7) (fun i => i + 1) :
      List (Outcome Nat Nat Nat Nat Nat)).map Outcome.index = List.range 7 := by
    decide
  have hidx : (arr.map Outcome.index).Perm (List.range 7) := by
    have h1 := hperm.map Outcome.index
    rw [hidxconc] at h1
    exact h1
  have hlen : arr.length = 7 := by
    have h := hidx.length_eq
    simpa using h
  have hel : Multiset.map Outcome.index
      (iterElems arr ([] : List (Nat × Outcome Nat Nat Nat Nat Nat))) =
      ↑(List.range' 0 7) := by
    have h1 : iterElems arr ([] : List (Nat × Outcome Nat Nat Nat Nat Nat)) =
        ↑arr := by
      simp [iterElems]
    rw [h1, Multiset.map_coe, Multiset.coe_eq_coe, ← List.range_eq_range']
    exact hidx
  obtain ⟨ys, hrun, hmap, hys⟩ := runGo_perm 7 (arr.length + 1)
    (fun p hp => absurd hp (List.not_mem_nil p)) hel (by omega)
  have hysarr : ys.Perm arr := by
    refine Multiset.coe_eq_coe.mp ?_
    rw [hys]
    simp [iterElems]
  have hysperm : ys.Perm (hiveMapOutcomes 4 (List.range' 2 7) (fun i => i + 1)) :=
    hysarr.trans hperm
  have hmapeq : ys.map Outcome.index =
      (hiveMapOutcomes 4 (List.range' 2 7) (fun i => i + 1) :
        List (Outcome Nat Nat Nat Nat Nat)).map Outcome.index := by
    rw [hmap, hidxconc, List.range_eq_range']
  have hyseq : ys = hiveMapOutcomes 4 (List.range' 2 7) (fun i => i + 1) :=
    eq_of_perm_of_map_eq Outcome.index hysperm hmapeq (by decide)
  rw [← hyseq]
  exact hrun

/-- Witness for C8: the outcomes arriving in exactly reversed index order. -/
theorem C8_witness :
    (∃ outs, collectOutputs
        ([Outcome.success 6 9, Outcome.success 5 8, Outcome.success 4 7,
          Outcome.success 3 6, Outcome.success 2 5, Outcome.success 1 4,
          Outcome.success 0 3] : List (Outcome Nat Nat Nat Nat Nat)) =
        some outs ∧ outs.sum = 42) ∧
    intoOrderedRun
        ([Outcome.success 6 9, Outcome.success 5 8, Outcome.success 4 7,
          Outcome.success 3 6, Outcome.success 2 5, Outcome.success 1 4,
          Outcome.success 0 3] : List (Outcome Nat Nat Nat Nat Nat)) =
      .ok (hiveMapOutcomes 4 (List.range' 2 7) (fun i => i + 1)) ∧
    (hiveMapOutcomes 4 (List.range' 2 7) (fun i => i + 1) :
        List (Outcome Nat Nat Nat Nat Nat)).filterMap Outcome.unwrapModel =
      [3, 4, 5, 6, 7, 8, 9] :=
  C8_pure_map_scenario _ (by decide)
